import Mathlib

/-!
Verification of `HamedStack.StyleInjector` (`src/index.ts`).

The development shallowly embeds the JavaScript code: JS values are the
inductive `JsVal`, the `toCss` explicit-stack traversal becomes the
`runStack` work-list recursion, and DOM mutation in `injectStyle` is
modelled as explicit state passing on a `Doc` value.  Fallible code
returns `Except String`, the error string being the thrown message.
-/

namespace StyleInjector

/-- A JavaScript runtime value, restricted to the shapes `toCss` and
`injectStyle` can observe: strings, numbers (integral, printed in
decimal), booleans, `undefined`, `null`, arrays and plain objects.
An object is its ordered list of own enumerable string-keyed entries,
matching the iteration order of `Object.entries`. -/
inductive JsVal where
  | vStr (s : String)
  | vNum (n : Int)
  | vBool (b : Bool)
  | vUndefined
  | vNull
  | vArr (elems : List JsVal)
  | vObj (entries : List (String × JsVal))

/-- JavaScript `typeof`.  Note `typeof null` is `"object"`. -/
def jsTypeof : JsVal → String
  | .vStr _ => "string"
  | .vNum _ => "number"
  | .vBool _ => "boolean"
  | .vUndefined => "undefined"
  | .vNull => "object"
  | .vArr _ => "object"
  | .vObj _ => "object"

/-- JavaScript `Array.isArray`. -/
def isArray : JsVal → Bool
  | .vArr _ => true
  | _ => false

/-- JavaScript falsiness (`!v` is true): `""`, `0`, `false`, `undefined`
and `null` are falsy, everything else here is truthy. -/
def isFalsy : JsVal → Bool
  | .vStr s => s == ""
  | .vNum n => n == 0
  | .vBool b => !b
  | .vUndefined => true
  | .vNull => true
  | _ => false

mutual

/-- JavaScript string conversion (as in a template literal `${v}`). -/
def jsToString : JsVal → String
  | .vStr s => s
  | .vNum n => toString n
  | .vBool b => cond b "true" "false"
  | .vUndefined => "undefined"
  | .vNull => "null"
  | .vArr xs => String.intercalate "," (arrElemStrings xs)
  | .vObj _ => "[object Object]"

/-- `Array.prototype.join`: `null` and `undefined` elements become the
empty string, other elements their string conversion. -/
def arrElemStrings : List JsVal → List String
  | [] => []
  | .vNull :: rest => "" :: arrElemStrings rest
  | .vUndefined :: rest => "" :: arrElemStrings rest
  | v :: rest => jsToString v :: arrElemStrings rest

end

/-- Lowercasing of a string, character by character (ASCII, which covers
every identifier the source manipulates). -/
def lowerString (s : String) : String := String.mk (s.data.map Char.toLower)

/-- Continuation of `splitCamel`: `cur` is the reversed current segment,
a new segment starts immediately before every character in `A`–`Z`. -/
def splitCamelGo (cur : List Char) : List Char → List (List Char)
  | [] => [cur.reverse]
  | c :: rest =>
    if c.isUpper then cur.reverse :: splitCamelGo [c] rest
    else splitCamelGo (c :: cur) rest

/-- `str.split(/(?=[A-Z])/)` on a non-empty character list: the first
character opens the first segment (a zero-width match at index 0 creates
no empty leading segment). -/
def splitCamel : List Char → List (List Char)
  | [] => []
  | c :: rest => splitCamelGo [c] rest

/-- `caseConverter` from `src/index.ts`: kebab-cases a camel-case
identifier; if the first character equals its own uppercased form, a
hyphen is prepended. -/
def caseConverter (str : String) : String :=
  match str.data with
  | [] => str
  | c :: _ =>
    let result := lowerString (String.intercalate "-" ((splitCamel str.data).map String.mk))
    if c == c.toUpper then "-" ++ result else result

example : caseConverter "" = "" := by decide
example : caseConverter "backgroundColor" = "background-color" := by decide
example : caseConverter "Hover" = "-hover" := by decide
example : caseConverter "borderTopWidth" = "border-top-width" := by decide
example : caseConverter "0pad" = "-0pad" := by decide

/-- The thrown message of `Object.entries(null)`. -/
def entriesNullMsg : String := "Cannot convert undefined or null to object"

/-- `Object.entries` as used by the traversal.  Only plain objects and
`null` ever reach it: the traversal stack receives exactly the values
with `typeof v == "object" && !Array.isArray(v)`.  On `null` (and
`undefined`) it throws; on a plain object it returns the entry list; the
remaining constructors are unreachable from `toCss` and yield no
entries. -/
def objEntries : JsVal → Except String (List (String × JsVal))
  | .vNull => .error entriesNullMsg
  | .vUndefined => .error entriesNullMsg
  | .vObj es => .ok es
  | _ => .ok []

/-- The body of the `for (const [id, value] of Object.entries(cssObj))`
loop: returns the work items pushed for nested values (in push order,
with their composed selectors) and the accumulated `nestedCss`
declaration strings (in entry order). -/
def processEntries (parentSelector : String) :
    List (String × JsVal) → List (String × JsVal) × List String
  | [] => ([], [])
  | (id, value) :: rest =>
    let key := caseConverter id
    let pd := processEntries parentSelector rest
    if jsTypeof value == "object" && !(isArray value) then
      let newSelector :=
        if parentSelector != "" then parentSelector ++ " ." ++ caseConverter id
        else "." ++ caseConverter id
      ((newSelector, value) :: pd.1, pd.2)
    else
      (pd.1, (key ++ ":" ++ jsToString value ++ ";") :: pd.2)

mutual

/-- Number of nodes of a value reachable by the traversal (array
elements are leaves for the traversal, so they count as one). -/
def jsSize : JsVal → Nat
  | .vObj es => 1 + entriesSize es
  | _ => 1

/-- Total `jsSize` of the values of an entry list. -/
def entriesSize : List (String × JsVal) → Nat
  | [] => 1
  | (_, v) :: rest => 1 + jsSize v + entriesSize rest

end

theorem jsSize_pos (v : JsVal) : 1 ≤ jsSize v := by
  cases v <;> simp [jsSize]

/-- Sum of the sizes of the pending nodes of a work list: the measure
that shrinks at every iteration of the `while` loop. -/
def stackSize (l : List (String × JsVal)) : Nat :=
  (l.map fun p => jsSize p.2).sum

theorem stackSize_nil : stackSize [] = 0 := rfl

theorem stackSize_cons (p : String × JsVal) (l : List (String × JsVal)) :
    stackSize (p :: l) = jsSize p.2 + stackSize l := by
  simp [stackSize]

theorem stackSize_append (a b : List (String × JsVal)) :
    stackSize (a ++ b) = stackSize a + stackSize b := by
  simp [stackSize]

theorem stackSize_reverse (a : List (String × JsVal)) :
    stackSize a.reverse = stackSize a := by
  simp [stackSize, List.sum_reverse]

theorem stackSize_processEntries (sel : String) (es : List (String × JsVal)) :
    stackSize (processEntries sel es).1 ≤ entriesSize es := by
  induction es with
  | nil => simp [processEntries, stackSize_nil, entriesSize]
  | cons hd tl ih =>
    obtain ⟨id, value⟩ := hd
    simp only [processEntries, entriesSize]
    by_cases h : (jsTypeof value == "object" && !(isArray value)) = true
    · simp only [h, if_true, stackSize_cons]
      omega
    · simp only [h, if_false, Bool.false_eq_true]
      omega

theorem stackSize_processEntries_lt (sel : String) (v : JsVal)
    (es : List (String × JsVal)) (h : objEntries v = .ok es) :
    stackSize (processEntries sel es).1 < jsSize v := by
  have hle := stackSize_processEntries sel es
  cases v <;> simp only [objEntries, Except.ok.injEq, reduceCtorEq] at h <;> subst h <;>
    simp only [jsSize, processEntries, stackSize_nil, entriesSize] at * <;> omega

theorem stackSize_rest_lt (p : String × JsVal) (rest : List (String × JsVal)) :
    stackSize rest < stackSize (p :: rest) := by
  have := jsSize_pos p.2
  simp only [stackSize_cons]
  omega

theorem stackSize_pushed_lt (sel : String) (v : JsVal)
    (es rest : List (String × JsVal)) (h : objEntries v = .ok es) :
    stackSize (processEntries sel es).1 < stackSize ((sel, v) :: rest) := by
  have := stackSize_processEntries_lt sel v es h
  simp only [stackSize_cons]
  omega

theorem stackSize_pushed_reverse_lt (sel : String) (v : JsVal)
    (es rest : List (String × JsVal)) (h : objEntries v = .ok es) :
    stackSize ((processEntries sel es).1.reverse ++ rest) < stackSize ((sel, v) :: rest) := by
  have := stackSize_processEntries_lt sel v es h
  simp only [stackSize_append, stackSize_reverse, stackSize_cons]
  omega

/-- The `while (stack.length > 0)` loop of `toCss`: pop the top work
item, process its entries (pushing nested values with their composed
selectors, collecting leaf declarations), and append one rule line when
the collected `nestedCss` list is non-empty.  The JS array's top is its
end; here the list head is the top, so the items pushed in entry order
arrive reversed at the front. -/
def runStack : List (String × JsVal) → List String → Except String (List String)
  | [], lines => .ok lines
  | (sel, v) :: rest, lines =>
    match h : objEntries v with
    | .error e => .error e
    | .ok es =>
      let pd := processEntries sel es
      runStack (pd.1.reverse ++ rest)
        (if pd.2.length > 0 then lines ++ [sel ++ "\x7b" ++ String.join pd.2 ++ "\x7d"] else lines)
termination_by stack _ => stackSize stack
decreasing_by
  exact stackSize_pushed_reverse_lt _ _ _ _ ‹_›

/-- `toCss` from `src/index.ts`: the upfront type check, the stack
traversal, and the final `lines.reverse().join('')`. -/
def toCss (obj : JsVal) : Except String String :=
  if isFalsy obj || (jsTypeof obj != "object") || isArray obj then
    .error ("Expected an argument of type object, but got " ++ jsTypeof obj)
  else
    match runStack [("", obj)] [] with
    | .error e => .error e
    | .ok lines => .ok (String.join lines.reverse)

example : toCss (.vObj [("color", .vStr "red")]) = .ok "\x7bcolor:red;\x7d" := by
  have h1 : caseConverter "color" = "color" := by decide
  simp [toCss, runStack, objEntries, processEntries, isFalsy, jsTypeof, isArray,
    h1, jsToString, String.join]

/-- The lines a *pre-order* recursive flattening produces for a list of
work items, as the spec describes it: for each item, first the item's
own rule (when it has direct declarations), then the rules of its
nested children, children in their original key order; the remaining
items follow.  Per-entry processing (selector composition, declaration
formatting) is `processEntries`, shared with the code. -/
def preList : List (String × JsVal) → Except String (List String)
  | [] => .ok []
  | (sel, v) :: rest =>
    match h : objEntries v with
    | .error e => .error e
    | .ok es =>
      let pd := processEntries sel es
      let selfRule :=
        if pd.2.length > 0 then [sel ++ "\x7b" ++ String.join pd.2 ++ "\x7d"] else []
      match preList pd.1 with
      | .error e => .error e
      | .ok childLines =>
        match preList rest with
        | .error e => .error e
        | .ok restLines => .ok (selfRule ++ childLines ++ restLines)
termination_by l => stackSize l
decreasing_by
  all_goals first
    | exact stackSize_pushed_lt _ _ _ _ ‹_›
    | exact stackSize_rest_lt _ _

/-- The lines a *post-order* recursive flattening produces for a list of
work items: for each item, first the rules of its nested children
(children in their original key order, each child flattened post-order),
then the item's own rule (when it has direct declarations); the
remaining items follow. -/
def postList : List (String × JsVal) → Except String (List String)
  | [] => .ok []
  | (sel, v) :: rest =>
    match h : objEntries v with
    | .error e => .error e
    | .ok es =>
      let pd := processEntries sel es
      let selfRule :=
        if pd.2.length > 0 then [sel ++ "\x7b" ++ String.join pd.2 ++ "\x7d"] else []
      match postList pd.1 with
      | .error e => .error e
      | .ok childLines =>
        match postList rest with
        | .error e => .error e
        | .ok restLines => .ok (childLines ++ selfRule ++ restLines)
termination_by l => stackSize l
decreasing_by
  all_goals first
    | exact stackSize_pushed_lt _ _ _ _ ‹_›
    | exact stackSize_rest_lt _ _

/-- Accumulator-free form of `runStack`: the list of rule lines the
stack traversal emits, in emission order. -/
def dfsLines : List (String × JsVal) → Except String (List String)
  | [] => .ok []
  | (sel, v) :: rest =>
    match h : objEntries v with
    | .error e => .error e
    | .ok es =>
      let pd := processEntries sel es
      let selfRule :=
        if pd.2.length > 0 then [sel ++ "\x7b" ++ String.join pd.2 ++ "\x7d"] else []
      match dfsLines (pd.1.reverse ++ rest) with
      | .error e => .error e
      | .ok ls => .ok (selfRule ++ ls)
termination_by l => stackSize l
decreasing_by
  exact stackSize_pushed_reverse_lt _ _ _ _ ‹_›

theorem objEntries_error_msg (v : JsVal) (e : String)
    (h : objEntries v = .error e) : e = entriesNullMsg := by
  cases v <;> simp_all [objEntries]

theorem runStack_nil (L : List String) : runStack [] L = .ok L := by
  simp [runStack]

theorem runStack_cons_err (sel : String) (v : JsVal)
    (rest : List (String × JsVal)) (L : List String) (e : String)
    (h : objEntries v = .error e) :
    runStack ((sel, v) :: rest) L = .error e := by
  cases v <;> simp_all [runStack, objEntries]

theorem runStack_cons_ok (sel : String) (v : JsVal)
    (rest : List (String × JsVal)) (L : List String)
    (es : List (String × JsVal)) (h : objEntries v = .ok es) :
    runStack ((sel, v) :: rest) L =
      runStack ((processEntries sel es).1.reverse ++ rest)
        (if (processEntries sel es).2.length > 0 then
          L ++ [sel ++ "\x7b" ++ String.join (processEntries sel es).2 ++ "\x7d"]
        else L) := by
  cases v <;> simp_all [runStack, objEntries]

theorem preList_nil : preList [] = .ok [] := by
  simp [preList]

theorem preList_cons_err (sel : String) (v : JsVal)
    (rest : List (String × JsVal)) (e : String)
    (h : objEntries v = .error e) :
    preList ((sel, v) :: rest) = .error e := by
  cases v <;> simp_all [preList, objEntries]

theorem preList_cons_ok (sel : String) (v : JsVal)
    (rest : List (String × JsVal))
    (es : List (String × JsVal)) (h : objEntries v = .ok es) :
    preList ((sel, v) :: rest) =
      (match preList (processEntries sel es).1 with
      | .error e => .error e
      | .ok childLines =>
        match preList rest with
        | .error e => .error e
        | .ok restLines =>
          .ok ((if (processEntries sel es).2.length > 0 then
              [sel ++ "\x7b" ++ String.join (processEntries sel es).2 ++ "\x7d"]
            else []) ++ childLines ++ restLines)) := by
  cases v <;> simp_all [preList, objEntries]

theorem postList_nil : postList [] = .ok [] := by
  simp [postList]

theorem postList_cons_err (sel : String) (v : JsVal)
    (rest : List (String × JsVal)) (e : String)
    (h : objEntries v = .error e) :
    postList ((sel, v) :: rest) = .error e := by
  cases v <;> simp_all [postList, objEntries]

theorem postList_cons_ok (sel : String) (v : JsVal)
    (rest : List (String × JsVal))
    (es : List (String × JsVal)) (h : objEntries v = .ok es) :
    postList ((sel, v) :: rest) =
      (match postList (processEntries sel es).1 with
      | .error e => .error e
      | .ok childLines =>
        match postList rest with
        | .error e => .error e
        | .ok restLines =>
          .ok (childLines ++
            (if (processEntries sel es).2.length > 0 then
              [sel ++ "\x7b" ++ String.join (processEntries sel es).2 ++ "\x7d"]
            else []) ++ restLines)) := by
  cases v <;> simp_all [postList, objEntries]

theorem dfsLines_nil : dfsLines [] = .ok [] := by
  simp [dfsLines]

theorem dfsLines_cons_err (sel : String) (v : JsVal)
    (rest : List (String × JsVal)) (e : String)
    (h : objEntries v = .error e) :
    dfsLines ((sel, v) :: rest) = .error e := by
  cases v <;> simp_all [dfsLines, objEntries]

theorem dfsLines_cons_ok (sel : String) (v : JsVal)
    (rest : List (String × JsVal))
    (es : List (String × JsVal)) (h : objEntries v = .ok es) :
    dfsLines ((sel, v) :: rest) =
      (match dfsLines ((processEntries sel es).1.reverse ++ rest) with
      | .error e => .error e
      | .ok ls =>
        .ok ((if (processEntries sel es).2.length > 0 then
            [sel ++ "\x7b" ++ String.join (processEntries sel es).2 ++ "\x7d"]
          else []) ++ ls)) := by
  cases v <;> simp_all [dfsLines, objEntries]

/-- Concatenation of two fallible line lists: first error wins. -/
def appendE (x y : Except String (List String)) : Except String (List String) :=
  match x with
  | .error e => .error e
  | .ok a =>
    match y with
    | .error e => .error e
    | .ok b => .ok (a ++ b)

theorem postList_append_bounded (n : Nat) :
    ∀ (A B : List (String × JsVal)), stackSize A ≤ n →
      postList (A ++ B) = appendE (postList A) (postList B) := by
  induction n with
  | zero =>
    intro A B hA
    cases A with
    | nil =>
      cases hB : postList B <;> simp [postList_nil, appendE, hB]
    | cons p r =>
      simp only [stackSize_cons] at hA
      have := jsSize_pos p.2
      omega
  | succ n ih =>
    intro A B hA
    cases A with
    | nil =>
      cases hB : postList B <;> simp [postList_nil, appendE, hB]
    | cons p r =>
      obtain ⟨sel, v⟩ := p
      simp only [stackSize_cons] at hA
      cases h : objEntries v with
      | error e =>
        rw [List.cons_append, postList_cons_err _ _ _ _ h, postList_cons_err _ _ _ _ h]
        simp [appendE]
      | ok es =>
        rw [List.cons_append, postList_cons_ok _ _ _ _ h, postList_cons_ok _ _ _ _ h]
        have hr : stackSize r ≤ n := by
          have := jsSize_pos v
          omega
        rw [ih r B hr]
        cases hp : postList (processEntries sel es).1 <;>
          cases hr2 : postList r <;>
          cases hb : postList B <;>
          simp [appendE, hp, hr2, hb]

theorem postList_append (A B : List (String × JsVal)) :
    postList (A ++ B) = appendE (postList A) (postList B) :=
  postList_append_bounded (stackSize A) A B le_rfl

theorem postList_error_msg_bounded (n : Nat) :
    ∀ (S : List (String × JsVal)) (e : String), stackSize S ≤ n →
      postList S = .error e → e = entriesNullMsg := by
  induction n with
  | zero =>
    intro S e hS herr
    cases S with
    | nil => rw [postList_nil] at herr; exact absurd herr (by simp)
    | cons p r =>
      simp only [stackSize_cons] at hS
      have := jsSize_pos p.2
      omega
  | succ n ih =>
    intro S e hS herr
    cases S with
    | nil => rw [postList_nil] at herr; exact absurd herr (by simp)
    | cons p r =>
      obtain ⟨sel, v⟩ := p
      simp only [stackSize_cons] at hS
      cases h : objEntries v with
      | error e2 =>
        rw [postList_cons_err _ _ _ _ h] at herr
        cases herr
        exact objEntries_error_msg v e h
      | ok es =>
        rw [postList_cons_ok _ _ _ _ h] at herr
        cases hp : postList (processEntries sel es).1 with
        | error e3 =>
          rw [hp] at herr
          cases herr
          have hsz : stackSize (processEntries sel es).1 ≤ n := by
            have := stackSize_processEntries_lt sel v es h
            omega
          exact ih _ _ hsz hp
        | ok c =>
          rw [hp] at herr
          cases hr : postList r with
          | error e4 =>
            rw [hr] at herr
            cases herr
            have hsz : stackSize r ≤ n := by
              have := jsSize_pos v
              omega
            exact ih _ _ hsz hr
          | ok d =>
            rw [hr] at herr
            exact absurd herr (by simp)

theorem postList_error_msg (S : List (String × JsVal)) (e : String)
    (h : postList S = .error e) : e = entriesNullMsg :=
  postList_error_msg_bounded (stackSize S) S e le_rfl h

theorem dfsLines_error_msg_bounded (n : Nat) :
    ∀ (S : List (String × JsVal)) (e : String), stackSize S ≤ n →
      dfsLines S = .error e → e = entriesNullMsg := by
  induction n with
  | zero =>
    intro S e hS herr
    cases S with
    | nil => rw [dfsLines_nil] at herr; exact absurd herr (by simp)
    | cons p r =>
      simp only [stackSize_cons] at hS
      have := jsSize_pos p.2
      omega
  | succ n ih =>
    intro S e hS herr
    cases S with
    | nil => rw [dfsLines_nil] at herr; exact absurd herr (by simp)
    | cons p r =>
      obtain ⟨sel, v⟩ := p
      simp only [stackSize_cons] at hS
      cases h : objEntries v with
      | error e2 =>
        rw [dfsLines_cons_err _ _ _ _ h] at herr
        cases herr
        exact objEntries_error_msg v e h
      | ok es =>
        rw [dfsLines_cons_ok _ _ _ _ h] at herr
        cases hd : dfsLines ((processEntries sel es).1.reverse ++ r) with
        | error e3 =>
          rw [hd] at herr
          cases herr
          have hsz : stackSize ((processEntries sel es).1.reverse ++ r) ≤ n := by
            have := stackSize_pushed_reverse_lt sel v es r h
            simp only [stackSize_cons] at this
            omega
          exact ih _ _ hsz hd
        | ok ls =>
          rw [hd] at herr
          exact absurd herr (by simp)

theorem dfsLines_error_msg (S : List (String × JsVal)) (e : String)
    (h : dfsLines S = .error e) : e = entriesNullMsg :=
  dfsLines_error_msg_bounded (stackSize S) S e le_rfl h

theorem runStack_eq_dfsLines_bounded (n : Nat) :
    ∀ (S : List (String × JsVal)) (L : List String), stackSize S ≤ n →
      runStack S L = Except.map (fun ls => L ++ ls) (dfsLines S) := by
  induction n with
  | zero =>
    intro S L hS
    cases S with
    | nil => simp [runStack_nil, dfsLines_nil, Except.map]
    | cons p r =>
      simp only [stackSize_cons] at hS
      have := jsSize_pos p.2
      omega
  | succ n ih =>
    intro S L hS
    cases S with
    | nil => simp [runStack_nil, dfsLines_nil, Except.map]
    | cons p r =>
      obtain ⟨sel, v⟩ := p
      simp only [stackSize_cons] at hS
      cases h : objEntries v with
      | error e =>
        rw [runStack_cons_err _ _ _ _ _ h, dfsLines_cons_err _ _ _ _ h]
        simp [Except.map]
      | ok es =>
        rw [runStack_cons_ok _ _ _ _ _ h, dfsLines_cons_ok _ _ _ _ h]
        have hsz : stackSize ((processEntries sel es).1.reverse ++ r) ≤ n := by
          have := stackSize_pushed_reverse_lt sel v es r h
          simp only [stackSize_cons] at this
          omega
        rw [ih _ _ hsz]
        cases hd : dfsLines ((processEntries sel es).1.reverse ++ r) <;>
          by_cases hc : (processEntries sel es).2.length > 0 <;>
          simp [Except.map, hd, hc]

theorem runStack_eq_dfsLines (S : List (String × JsVal)) (L : List String) :
    runStack S L = Except.map (fun ls => L ++ ls) (dfsLines S) :=
  runStack_eq_dfsLines_bounded (stackSize S) S L le_rfl

theorem postList_singleton (sel : String) (v : JsVal)
    (es : List (String × JsVal)) (h : objEntries v = .ok es) :
    postList [(sel, v)] =
      (match postList (processEntries sel es).1 with
      | .error e => .error e
      | .ok childLines =>
        .ok (childLines ++
          (if (processEntries sel es).2.length > 0 then
            [sel ++ "\x7b" ++ String.join (processEntries sel es).2 ++ "\x7d"]
          else []))) := by
  rw [postList_cons_ok _ _ _ _ h]
  cases hp : postList (processEntries sel es).1 <;> simp [postList_nil]

theorem dfsLines_reverse_eq_postList_bounded (n : Nat) :
    ∀ (S : List (String × JsVal)), stackSize S ≤ n →
      Except.map List.reverse (dfsLines S) = postList S.reverse := by
  induction n with
  | zero =>
    intro S hS
    cases S with
    | nil => simp [dfsLines_nil, postList_nil, Except.map]
    | cons p r =>
      simp only [stackSize_cons] at hS
      have := jsSize_pos p.2
      omega
  | succ n ih =>
    intro S hS
    cases S with
    | nil => simp [dfsLines_nil, postList_nil, Except.map]
    | cons p r =>
      obtain ⟨sel, v⟩ := p
      simp only [stackSize_cons] at hS
      have hkey : ((sel, v) :: r).reverse = r.reverse ++ [(sel, v)] := by simp
      rw [hkey, postList_append]
      cases h : objEntries v with
      | error e =>
        rw [dfsLines_cons_err _ _ _ _ h]
        have hsingle : postList [(sel, v)] = .error e := by
          rw [postList_cons_err _ _ _ _ h]
        have he : e = entriesNullMsg := objEntries_error_msg v e h
        cases hrr : postList r.reverse with
        | error e2 =>
          have he2 : e2 = entriesNullMsg := postList_error_msg _ _ hrr
          simp [appendE, hrr, Except.map, he, he2]
        | ok a =>
          simp [appendE, hrr, hsingle, Except.map]
      | ok es =>
        rw [dfsLines_cons_ok _ _ _ _ h]
        have hsz : stackSize ((processEntries sel es).1.reverse ++ r) ≤ n := by
          have := stackSize_pushed_reverse_lt sel v es r h
          simp only [stackSize_cons] at this
          omega
        have ihrec := ih _ hsz
        have hrev : ((processEntries sel es).1.reverse ++ r).reverse =
            r.reverse ++ (processEntries sel es).1 := by
          simp
        rw [hrev, postList_append] at ihrec
        rw [postList_singleton sel v es h]
        cases hd : dfsLines ((processEntries sel es).1.reverse ++ r) with
        | error e =>
          rw [hd] at ihrec
          cases hrr : postList r.reverse with
          | error e2 =>
            rw [hrr] at ihrec
            simp only [appendE, Except.map] at ihrec ⊢
            exact ihrec
          | ok a =>
            rw [hrr] at ihrec
            cases hp : postList (processEntries sel es).1 with
            | error e3 =>
              rw [hp] at ihrec
              simp only [appendE, Except.map] at ihrec ⊢
              exact ihrec
            | ok b =>
              rw [hp] at ihrec
              simp [appendE, Except.map] at ihrec
        | ok ls =>
          rw [hd] at ihrec
          cases hrr : postList r.reverse with
          | error e2 =>
            rw [hrr] at ihrec
            simp [appendE, Except.map] at ihrec
          | ok a =>
            rw [hrr] at ihrec
            cases hp : postList (processEntries sel es).1 with
            | error e3 =>
              rw [hp] at ihrec
              simp [appendE, Except.map] at ihrec
            | ok b =>
              rw [hp] at ihrec
              simp only [appendE, Except.map, Except.ok.injEq] at ihrec ⊢
              by_cases hc : (processEntries sel es).2.length > 0 <;>
                simp [hc, ihrec]

theorem dfsLines_reverse_eq_postList (S : List (String × JsVal)) :
    Except.map List.reverse (dfsLines S) = postList S.reverse :=
  dfsLines_reverse_eq_postList_bounded (stackSize S) S le_rfl

/-- `toCss` computed by a *post-order* recursive flattening: each
parent's rule comes after the rules of its nested children, children in
their original key order. -/
def toCssPost (obj : JsVal) : Except String String :=
  if isFalsy obj || (jsTypeof obj != "object") || isArray obj then
    .error ("Expected an argument of type object, but got " ++ jsTypeof obj)
  else Except.map String.join (postList [("", obj)])

/-- Modelled from the spec: `toCss` computed by the claimed
"straightforward pre-order recursive flattening" — each parent's rule
before the rules of its nested children, children (and siblings) in
their original key order. -/
def toCssPre (obj : JsVal) : Except String String :=
  if isFalsy obj || (jsTypeof obj != "object") || isArray obj then
    .error ("Expected an argument of type object, but got " ++ jsTypeof obj)
  else Except.map String.join (preList [("", obj)])

theorem toCss_eq_toCssPost (obj : JsVal) : toCss obj = toCssPost obj := by
  unfold toCss toCssPost
  by_cases hc : (isFalsy obj || (jsTypeof obj != "object") || isArray obj) = true
  · simp [hc]
  · simp only [hc, if_false, Bool.false_eq_true]
    have h1 := runStack_eq_dfsLines [("", obj)] []
    have h2 := dfsLines_reverse_eq_postList [("", obj)]
    simp only [List.reverse_cons, List.reverse_nil, List.nil_append] at h2
    rw [h1]
    cases hd : dfsLines [("", obj)] with
    | error e =>
      rw [hd] at h2
      simp [Except.map, ← h2]
    | ok ls =>
      rw [hd] at h2
      simp [Except.map, ← h2]

/-- A node that has both a direct declaration and a nested child:
`{p: {color: "red", c: {color: "blue"}}}`. -/
def exMixed : JsVal :=
  .vObj [("p", .vObj [("color", .vStr "red"), ("c", .vObj [("color", .vStr "blue")])])]

theorem toCss_exMixed :
    toCss exMixed = .ok ".p .c\x7bcolor:blue;\x7d.p\x7bcolor:red;\x7d" := by
  have h1 : caseConverter "p" = "p" := by decide
  have h2 : caseConverter "color" = "color" := by decide
  have h3 : caseConverter "c" = "c" := by decide
  simp [toCss, exMixed, runStack, objEntries, processEntries, isFalsy, jsTypeof,
    isArray, h1, h2, h3, jsToString, String.join]

theorem toCssPre_exMixed :
    toCssPre exMixed = .ok ".p\x7bcolor:red;\x7d.p .c\x7bcolor:blue;\x7d" := by
  have h1 : caseConverter "p" = "p" := by decide
  have h2 : caseConverter "color" = "color" := by decide
  have h3 : caseConverter "c" = "c" := by decide
  simp [toCssPre, exMixed, preList, objEntries, processEntries, isFalsy, jsTypeof,
    isArray, h1, h2, h3, jsToString, String.join, Except.map]

/-- Non-null, non-array object: exactly the inputs `toCss` accepts. -/
def isPlainObject : JsVal → Bool
  | .vObj _ => true
  | _ => false

theorem toCss_error_msg (es : List (String × JsVal)) (e : String)
    (h : toCss (.vObj es) = .error e) : e = entriesNullMsg := by
  rw [toCss] at h
  simp only [isFalsy, jsTypeof, isArray, bne_self_eq_false, Bool.or_self,
    Bool.or_false, Bool.false_or, if_neg, Bool.false_eq_true, if_false] at h
  rw [runStack_eq_dfsLines] at h
  cases hd : dfsLines [("", JsVal.vObj es)] with
  | error e2 =>
    rw [hd] at h
    simp only [Except.map] at h
    cases h
    exact dfsLines_error_msg _ _ hd
  | ok ls =>
    rw [hd] at h
    simp [Except.map] at h

theorem dfsLines_shape_bounded (n : Nat) :
    ∀ (S : List (String × JsVal)) (ls : List String), stackSize S ≤ n →
      dfsLines S = .ok ls →
      ∀ l ∈ ls, ∃ s ds, ds ≠ [] ∧ l = s ++ "\x7b" ++ String.join ds ++ "\x7d" := by
  induction n with
  | zero =>
    intro S ls hS hok
    cases S with
    | nil =>
      rw [dfsLines_nil] at hok
      cases hok
      intro l hl
      simp at hl
    | cons p r =>
      simp only [stackSize_cons] at hS
      have := jsSize_pos p.2
      omega
  | succ n ih =>
    intro S ls hS hok
    cases S with
    | nil =>
      rw [dfsLines_nil] at hok
      cases hok
      intro l hl
      simp at hl
    | cons p r =>
      obtain ⟨sel, v⟩ := p
      simp only [stackSize_cons] at hS
      cases h : objEntries v with
      | error e =>
        rw [dfsLines_cons_err _ _ _ _ h] at hok
        exact absurd hok (by simp)
      | ok es =>
        rw [dfsLines_cons_ok _ _ _ _ h] at hok
        cases hd : dfsLines ((processEntries sel es).1.reverse ++ r) with
        | error e =>
          rw [hd] at hok
          exact absurd hok (by simp)
        | ok ls2 =>
          rw [hd] at hok
          have hsz : stackSize ((processEntries sel es).1.reverse ++ r) ≤ n := by
            have := stackSize_pushed_reverse_lt sel v es r h
            simp only [stackSize_cons] at this
            omega
          have ihrec := ih _ _ hsz hd
          simp only [Except.ok.injEq] at hok
          subst hok
          intro l hl
          rw [List.mem_append] at hl
          cases hl with
          | inl hself =>
            by_cases hc : (processEntries sel es).2.length > 0
            · rw [if_pos hc] at hself
              simp only [List.mem_singleton] at hself
              subst hself
              refine ⟨sel, (processEntries sel es).2, ?_, by simp⟩
              intro hnil
              rw [hnil] at hc
              simp at hc
            · rw [if_neg hc] at hself
              simp at hself
          | inr hrest => exact ihrec l hrest

theorem runStack_shape (obj : JsVal) (ls : List String)
    (hok : runStack [("", obj)] [] = .ok ls) :
    ∀ l ∈ ls, ∃ s ds, ds ≠ [] ∧ l = s ++ "\x7b" ++ String.join ds ++ "\x7d" := by
  rw [runStack_eq_dfsLines] at hok
  cases hd : dfsLines [("", obj)] with
  | error e =>
    rw [hd] at hok
    exact absurd hok (by simp [Except.map])
  | ok ls2 =>
    rw [hd] at hok
    simp only [Except.map, List.nil_append, Except.ok.injEq] at hok
    subst hok
    exact dfsLines_shape_bounded (stackSize [("", obj)]) _ _ le_rfl hd

mutual

/-- No `null` sits in an object-entry position anywhere in the value
(`null` inside an array leaf is harmless: arrays are stringified, not
traversed). -/
def nullFree : JsVal → Bool
  | .vNull => false
  | .vObj es => nullFreeEntries es
  | _ => true

/-- `nullFree` for every value of an entry list. -/
def nullFreeEntries : List (String × JsVal) → Bool
  | [] => true
  | (_, v) :: rest => nullFree v && nullFreeEntries rest

end

theorem nullFreeEntries_mem (es : List (String × JsVal)) (id : String) (v : JsVal)
    (hmem : (id, v) ∈ es) (hnf : nullFreeEntries es = true) : nullFree v = true := by
  induction es with
  | nil => simp at hmem
  | cons hd tl ih =>
    obtain ⟨id2, v2⟩ := hd
    rw [nullFreeEntries, Bool.and_eq_true] at hnf
    rw [List.mem_cons] at hmem
    cases hmem with
    | inl heq =>
      cases heq
      exact hnf.1
    | inr htl => exact ih htl hnf.2

theorem mem_processEntries_fst (sel : String) (es : List (String × JsVal)) :
    ∀ p ∈ (processEntries sel es).1,
      (jsTypeof p.2 == "object" && !(isArray p.2)) = true ∧ ∃ id, (id, p.2) ∈ es := by
  induction es with
  | nil =>
    intro p hp
    simp [processEntries] at hp
  | cons hd tl ih =>
    obtain ⟨id, value⟩ := hd
    intro p hp
    simp only [processEntries] at hp
    by_cases h : (jsTypeof value == "object" && !(isArray value)) = true
    · rw [if_pos h] at hp
      rw [List.mem_cons] at hp
      cases hp with
      | inl heq =>
        cases heq
        exact ⟨h, id, by simp⟩
      | inr htl =>
        obtain ⟨hb, id2, hmem⟩ := ih p htl
        exact ⟨hb, id2, by simp [hmem]⟩
    · rw [if_neg h] at hp
      obtain ⟨hb, id2, hmem⟩ := ih p hp
      exact ⟨hb, id2, by simp [hmem]⟩

theorem dfsLines_ok_of_good_bounded (n : Nat) :
    ∀ (S : List (String × JsVal)), stackSize S ≤ n →
      (∀ p ∈ S, ∃ es, p.2 = .vObj es ∧ nullFreeEntries es = true) →
      ∃ ls, dfsLines S = .ok ls := by
  induction n with
  | zero =>
    intro S hS hgood
    cases S with
    | nil => exact ⟨[], dfsLines_nil⟩
    | cons p r =>
      simp only [stackSize_cons] at hS
      have := jsSize_pos p.2
      omega
  | succ n ih =>
    intro S hS hgood
    cases S with
    | nil => exact ⟨[], dfsLines_nil⟩
    | cons p r =>
      obtain ⟨sel, v⟩ := p
      simp only [stackSize_cons] at hS
      obtain ⟨es, hv, hnf⟩ := hgood (sel, v) (by simp)
      simp only at hv
      subst hv
      have h : objEntries (.vObj es) = .ok es := rfl
      have hsz : stackSize ((processEntries sel es).1.reverse ++ r) ≤ n := by
        have := stackSize_pushed_reverse_lt sel (.vObj es) es r h
        simp only [stackSize_cons] at this
        omega
      have hgood2 : ∀ p ∈ (processEntries sel es).1.reverse ++ r,
          ∃ es2, p.2 = .vObj es2 ∧ nullFreeEntries es2 = true := by
        intro p hp
        rw [List.mem_append, List.mem_reverse] at hp
        cases hp with
        | inl hpushed =>
          obtain ⟨hb, id, hmem⟩ := mem_processEntries_fst sel es p hpushed
          have hnfv : nullFree p.2 = true := nullFreeEntries_mem es id p.2 hmem hnf
          rw [Bool.and_eq_true] at hb
          cases hval : p.2 with
          | vObj es2 =>
            rw [hval] at hnfv
            exact ⟨es2, rfl, by simpa [nullFree] using hnfv⟩
          | vNull =>
            rw [hval] at hnfv
            simp [nullFree] at hnfv
          | vArr xs =>
            rw [hval] at hb
            simp [isArray] at hb
          | vStr s =>
            rw [hval] at hb
            simp [jsTypeof] at hb
          | vNum m =>
            rw [hval] at hb
            simp [jsTypeof] at hb
          | vBool b =>
            rw [hval] at hb
            simp [jsTypeof] at hb
          | vUndefined =>
            rw [hval] at hb
            simp [jsTypeof] at hb
        | inr hr => exact hgood p (List.mem_cons_of_mem _ hr)
      obtain ⟨ls, hls⟩ := ih _ hsz hgood2
      refine ⟨(if (processEntries sel es).2.length > 0 then
          [sel ++ "\x7b" ++ String.join (processEntries sel es).2 ++ "\x7d"] else []) ++ ls, ?_⟩
      rw [dfsLines_cons_ok _ _ _ _ h, hls]

theorem toCss_ok_of_nullFree (obj : JsVal)
    (h1 : jsTypeof obj = "object") (h2 : isArray obj = false)
    (h3 : isFalsy obj = false) (h4 : nullFree obj = true) :
    ∃ s, toCss obj = .ok s := by
  cases obj with
  | vStr s => exact absurd h1 (by simp [jsTypeof])
  | vNum m => exact absurd h1 (by simp [jsTypeof])
  | vBool b => exact absurd h1 (by simp [jsTypeof])
  | vUndefined => exact absurd h1 (by simp [jsTypeof])
  | vNull => exact absurd h3 (by simp [isFalsy])
  | vArr xs => exact absurd h2 (by simp [isArray])
  | vObj es =>
    obtain ⟨ls, hls⟩ :=
      dfsLines_ok_of_good_bounded (stackSize [("", JsVal.vObj es)]) _ le_rfl
        (by
          intro p hp
          simp only [List.mem_singleton] at hp
          subst hp
          exact ⟨es, rfl, by simpa [nullFree] using h4⟩)
    refine ⟨String.join ls.reverse, ?_⟩
    rw [toCss]
    simp only [isFalsy, jsTypeof, isArray, bne_self_eq_false, Bool.or_self,
      Bool.or_false, Bool.false_or, Bool.false_eq_true, if_false]
    rw [runStack_eq_dfsLines, hls]
    simp [Except.map]

/-- A DOM element as far as `injectStyle` observes it: tag name, id,
`type` attribute and text content. -/
structure Elem where
  tagName : String
  elemId : String
  elemType : String
  textContent : String
deriving DecidableEq

/-- The document: its elements in document order.  `getElementById`
looks elements up here; a created `<style>` element is appended at the
end (the boundary abstraction of `hostElement.appendChild`; the claims
never observe the host's position). -/
structure Doc where
  elems : List Elem
deriving DecidableEq

/-- `document.getElementById`: the first element with the given id. -/
def getElementById (doc : Doc) (i : String) : Option Elem :=
  doc.elems.find? (fun e => e.elemId == i)

/-- Assignment `oldStyle.textContent = txt`: mutates the first element
with the given id (the one `getElementById` returned). -/
def setTextById (i : String) (txt : String) : List Elem → List Elem
  | [] => []
  | e :: rest =>
    if e.elemId == i then { e with textContent := txt } :: rest
    else e :: setTextById i txt rest

/-- JS truthiness of the optional `id` argument (`if (id)`): absent and
empty-string ids are falsy. -/
def idTruthy : Option String → Bool
  | none => false
  | some s => s != ""

/-- `textOrObject.length === 0` for a string value. -/
def isEmptyStr : JsVal → Bool
  | .vStr s => s.length == 0
  | _ => false

/-- `typeof textOrObject === 'object' ? toCss(textOrObject) : textOrObject`
(a non-string primitive assigned to `textContent` is coerced to its
string form). -/
def resolveContent (v : JsVal) : Except String String :=
  if jsTypeof v == "object" then toCss v else .ok (jsToString v)

/-- The `console.warn` message of the non-overridable skip path. -/
def warnSkipMsg : String :=
  "Style with the same id exists and overridable is set to false. Skipping."

/-- `injectStyle` from `src/index.ts`.  The result is `.error msg` when
the call throws (leaving the document untouched), or `.ok (doc', warns)`
with the document after the call and the emitted console warnings. -/
def injectStyle (textOrObject : JsVal) (id? : Option String)
    (overridable : Bool) (doc : Doc) : Except String (Doc × List String) :=
  if isFalsy textOrObject || isArray textOrObject then
    .error "Invalid input: textOrObject cannot be null or an array."
  else if jsTypeof textOrObject == "string" && isEmptyStr textOrObject then
    .error "Invalid input: CSS string cannot be empty."
  else
    let create : Except String (Doc × List String) :=
      match resolveContent textOrObject with
      | .error e => .error e
      | .ok txt =>
        let style : Elem :=
          { tagName := "style"
            elemId := if idTruthy id? then id?.getD "" else ""
            elemType := "text/css"
            textContent := txt }
        .ok ({ elems := doc.elems ++ [style] }, [])
    if idTruthy id? then
      match getElementById doc (id?.getD "") with
      | some oldStyle =>
        if !(lowerString oldStyle.tagName == "style") then
          .error "The provided id does not indicate a style tag."
        else if lowerString oldStyle.tagName == "style" && !overridable then
          .ok (doc, [warnSkipMsg])
        else
          match resolveContent textOrObject with
          | .error e => .error e
          | .ok txt =>
            .ok ({ elems := setTextById (id?.getD "") txt doc.elems }, [])
      | none => create
    else create

theorem strLength_ne_zero (s : String) (h : ¬s = "") : ¬s.length = 0 := by
  intro hl
  apply h
  have hd : s.data.length = 0 := hl
  have hnil : s.data = [] := List.length_eq_zero.mp hd
  cases s
  simp_all

/-- C1 counterexample: at `{p: {color: "red", c: {color: "blue"}}}` the
stack traversal followed by the final reversal emits the nested child's
rule *before* its parent's rule, so `toCss` does not equal the claimed
straightforward pre-order (parent-before-children) recursive
flattening. -/
theorem claim1_counterexample :
    toCss exMixed = .ok ".p .c\x7bcolor:blue;\x7d.p\x7bcolor:red;\x7d" ∧
    toCssPre exMixed = .ok ".p\x7bcolor:red;\x7d.p .c\x7bcolor:blue;\x7d" ∧
    toCss exMixed ≠ toCssPre exMixed := by
  refine ⟨toCss_exMixed, toCssPre_exMixed, ?_⟩
  rw [toCss_exMixed, toCssPre_exMixed]
  intro hEq
  injection hEq with h
  exact absurd h (by decide)

/-- C1 (amended): for every input, `toCss` equals what a *post-order*
recursive flattening produces — each parent's rule comes after the
rules of its nested children, siblings in their original key order; the
explicit-stack traversal with the final reversal changes no output
byte relative to that recursion. -/
theorem claim1_theorem (obj : JsVal) : toCss obj = toCssPost obj :=
  toCss_eq_toCssPost obj

/-- C2: `toCss` raises the `TypeError` whose message names the received
`typeof` exactly for the inputs that are not non-null, non-array
objects (null, arrays, and primitives), and never raises that error on
a plain object. -/
theorem claim2_theorem (v : JsVal) :
    toCss v = .error ("Expected an argument of type object, but got " ++ jsTypeof v) ↔
      isPlainObject v = false := by
  cases v with
  | vObj es =>
    simp only [isPlainObject]
    constructor
    · intro h
      have hmsg := toCss_error_msg es _ h
      simp only [jsTypeof] at hmsg
      exact absurd hmsg (by decide)
    · intro h
      exact absurd h (by decide)
  | vStr s => simp [toCss, isPlainObject, isFalsy, jsTypeof, isArray]
  | vNum m => simp [toCss, isPlainObject, isFalsy, jsTypeof, isArray]
  | vBool b => simp [toCss, isPlainObject, isFalsy, jsTypeof, isArray]
  | vUndefined => simp [toCss, isPlainObject, isFalsy, jsTypeof, isArray]
  | vNull => simp [toCss, isPlainObject, isFalsy, jsTypeof, isArray]
  | vArr xs => simp [toCss, isPlainObject, isFalsy, jsTypeof, isArray]

/-- C3: the four specified name-conversion equations hold. -/
theorem claim3_theorem :
    caseConverter "" = "" ∧
    caseConverter "backgroundColor" = "background-color" ∧
    caseConverter "borderTopWidth" = "border-top-width" ∧
    caseConverter "Hover" = "-hover" :=
  ⟨by decide, by decide, by decide, by decide⟩

/-- C4: `{card:{title:{color:"red"}}}` flattens to exactly
`.card .title{color:red;}` (no rule for `.card` itself), and every rule
line the traversal collects has a non-empty declaration list. -/
theorem claim4_theorem :
    toCss (.vObj [("card", .vObj [("title", .vObj [("color", .vStr "red")])])]) =
      .ok ".card .title\x7bcolor:red;\x7d" ∧
    ∀ (obj : JsVal) (ls : List String), runStack [("", obj)] [] = .ok ls →
      ∀ l ∈ ls, ∃ s ds, ds ≠ [] ∧ l = s ++ "\x7b" ++ String.join ds ++ "\x7d" := by
  constructor
  · have h1 : caseConverter "card" = "card" := by decide
    have h2 : caseConverter "title" = "title" := by decide
    have h3 : caseConverter "color" = "color" := by decide
    simp [toCss, runStack, objEntries, processEntries, isFalsy, jsTypeof,
      isArray, h1, h2, h3, jsToString, String.join]
  · exact runStack_shape

theorem claim4_witness :
    ∃ s ds, ds ≠ [] ∧ "\x7bcolor:red;\x7d" = s ++ "\x7b" ++ String.join ds ++ "\x7d" := by
  apply claim4_theorem.2 (.vObj [("color", .vStr "red")]) ["\x7bcolor:red;\x7d"]
  · have h1 : caseConverter "color" = "color" := by decide
    simp [runStack, objEntries, processEntries, jsTypeof, isArray, h1,
      jsToString, String.join]
  · simp

/-- C5: `{a:{color:"red"}, b:{color:"blue"}}` flattens to exactly
`.a{color:red;}.b{color:blue;}` — sibling order preserved despite the
last-in-first-out stack. -/
theorem claim5_theorem :
    toCss (.vObj [("a", .vObj [("color", .vStr "red")]),
        ("b", .vObj [("color", .vStr "blue")])]) =
      .ok ".a\x7bcolor:red;\x7d.b\x7bcolor:blue;\x7d" := by
  have h1 : caseConverter "a" = "a" := by decide
  have h2 : caseConverter "b" = "b" := by decide
  have h3 : caseConverter "color" = "color" := by decide
  simp [toCss, runStack, objEntries, processEntries, isFalsy, jsTypeof,
    isArray, h1, h2, h3, jsToString, String.join]

/-- C6: a root with only leaf entries, `{color:"red"}`, flattens to
exactly `{color:red;}` — the rule block carries the empty root
selector. -/
theorem claim6_theorem :
    toCss (.vObj [("color", .vStr "red")]) = .ok "\x7bcolor:red;\x7d" := by
  have h1 : caseConverter "color" = "color" := by decide
  simp [toCss, runStack, objEntries, processEntries, isFalsy, jsTypeof,
    isArray, h1, jsToString, String.join]

/-- C7 counterexample: `{a: null}` passes the upfront type check (it is
a non-null, non-array object), yet `toCss` raises a `TypeError` during
the traversal: `typeof null` is `"object"`, so the `null` is pushed as
a work item and `Object.entries(null)` then throws. -/
theorem claim7_counterexample :
    isFalsy (JsVal.vObj [("a", .vNull)]) = false ∧
    jsTypeof (JsVal.vObj [("a", .vNull)]) = "object" ∧
    isArray (JsVal.vObj [("a", .vNull)]) = false ∧
    toCss (.vObj [("a", .vNull)]) = .error entriesNullMsg := by
  refine ⟨rfl, rfl, rfl, ?_⟩
  have h1 : caseConverter "a" = "a" := by decide
  simp [toCss, runStack, objEntries, processEntries, isFalsy, jsTypeof,
    isArray, h1]

/-- C7 (amended): for every input passing the upfront check in which no
nested value is `null`, the traversal raises no error; leaf values that
are not strings or numbers (booleans, `undefined`, arrays) are passed
through via their string representation. -/
theorem claim7_theorem :
    (∀ obj : JsVal, jsTypeof obj = "object" → isArray obj = false →
      isFalsy obj = false → nullFree obj = true → ∃ s, toCss obj = .ok s) ∧
    toCss (.vObj [("k", .vBool true)]) = .ok "\x7bk:true;\x7d" ∧
    toCss (.vObj [("k", .vUndefined)]) = .ok "\x7bk:undefined;\x7d" ∧
    toCss (.vObj [("k", .vArr [.vNum 1, .vNum 2])]) = .ok "\x7bk:1,2;\x7d" := by
  have h1 : caseConverter "k" = "k" := by decide
  have h2 : toString (1 : Int) = "1" := by decide
  have h3 : toString (2 : Int) = "2" := by decide
  refine ⟨toCss_ok_of_nullFree, ?_, ?_, ?_⟩ <;>
    simp [toCss, runStack, objEntries, processEntries, isFalsy, jsTypeof,
      isArray, h1, h2, h3, jsToString, arrElemStrings, String.join] <;>
    decide

theorem claim7_witness :
    ∃ s, toCss (.vObj [("color", .vStr "red")]) = .ok s :=
  claim7_theorem.1 (.vObj [("color", .vStr "red")]) rfl rfl rfl
    (by simp [nullFree, nullFreeEntries])

/-- C8: `injectStyle` fails with the invalid-input error when its
content argument is `null`, absent (`undefined`), an array, or the
empty string; the returned error carries no document, so the document
is unchanged. -/
theorem claim8_theorem (id? : Option String) (over : Bool) (doc : Doc)
    (xs : List JsVal) :
    injectStyle .vNull id? over doc =
      .error "Invalid input: textOrObject cannot be null or an array." ∧
    injectStyle .vUndefined id? over doc =
      .error "Invalid input: textOrObject cannot be null or an array." ∧
    injectStyle (.vArr xs) id? over doc =
      .error "Invalid input: textOrObject cannot be null or an array." ∧
    injectStyle (.vStr "") id? over doc =
      .error "Invalid input: textOrObject cannot be null or an array." := by
  refine ⟨?_, ?_, ?_, ?_⟩ <;> simp [injectStyle, isFalsy, isArray]

/-- C9: when the identity names an existing `<style>` element and
`overridable` is false, `injectStyle` emits the skip warning and
returns with the document unchanged, raising no error. -/
theorem claim9_theorem (c : JsVal) (i : String) (doc : Doc) (e : Elem)
    (hfalsy : isFalsy c = false) (harr : isArray c = false) (hi : i ≠ "")
    (hfind : getElementById doc i = some e)
    (htag : lowerString e.tagName = "style") :
    injectStyle c (some i) false doc = .ok (doc, [warnSkipMsg]) := by
  have hcond1 : (isFalsy c || isArray c) = false := by
    simp [hfalsy, harr]
  have hcond2 : (jsTypeof c == "string" && isEmptyStr c) = false := by
    cases c with
    | vStr s =>
      have hne : ¬s = "" := by simpa [isFalsy] using hfalsy
      have hlen := strLength_ne_zero s hne
      simp [jsTypeof, isEmptyStr, hlen]
    | vNum m => simp [jsTypeof, isEmptyStr]
    | vBool b => simp [jsTypeof, isEmptyStr]
    | vUndefined => simp [jsTypeof, isEmptyStr]
    | vNull => simp [jsTypeof, isEmptyStr]
    | vArr xs => simp [jsTypeof, isEmptyStr]
    | vObj es => simp [jsTypeof, isEmptyStr]
  simp [injectStyle, hcond1, hcond2, idTruthy, hi, hfind, htag]

theorem claim9_witness :
    injectStyle (.vStr "a") (some "x") false ⟨[⟨"style", "x", "text/css", "old"⟩]⟩ =
      .ok (⟨[⟨"style", "x", "text/css", "old"⟩]⟩, [warnSkipMsg]) :=
  claim9_theorem (.vStr "a") "x" ⟨[⟨"style", "x", "text/css", "old"⟩]⟩
    ⟨"style", "x", "text/css", "old"⟩ (by decide) rfl (by decide) (by decide)
    (by decide)

/-- C10: the hyphen prefix of `caseConverter` triggers for every
identifier whose first character is unchanged by uppercasing (digits,
punctuation, uppercase letters alike), and the prefix surfaces in
`toCss` output for such keys. -/
theorem claim10_theorem :
    (∀ (s : String) (c : Char) (cs : List Char), s.data = c :: cs →
      c.toUpper = c → ∃ r, caseConverter s = "-" ++ r) ∧
    caseConverter "0pad" = "-0pad" ∧
    caseConverter ":hover" = "-:hover" ∧
    toCss (.vObj [("0pad", .vStr "x")]) = .ok "\x7b-0pad:x;\x7d" ∧
    toCss (.vObj [(":hover", .vObj [("color", .vStr "red")])]) =
      .ok ".-:hover\x7bcolor:red;\x7d" := by
  refine ⟨?_, by decide, by decide, ?_, ?_⟩
  · intro s c cs hdata hupper
    simp only [caseConverter]
    rw [hdata]
    have hbeq : (c == c.toUpper) = true := by simp [hupper]
    simp only [hbeq, if_true]
    exact ⟨_, rfl⟩
  · have h1 : caseConverter "0pad" = "-0pad" := by decide
    simp [toCss, runStack, objEntries, processEntries, isFalsy, jsTypeof,
      isArray, h1, jsToString, String.join]
  · have h1 : caseConverter ":hover" = "-:hover" := by decide
    have h2 : caseConverter "color" = "color" := by decide
    simp [toCss, runStack, objEntries, processEntries, isFalsy, jsTypeof,
      isArray, h1, h2, jsToString, String.join]

theorem claim10_witness :
    ∃ r, caseConverter "0pad" = "-" ++ r :=
  claim10_theorem.1 "0pad" '0' ['p', 'a', 'd'] (by decide) (by decide)

end StyleInjector
